import Mathlib

/-!
Shallow embedding of the impact engine in climada/engine/impact.py: the
per-exposure damage computation (Impact._one_exposure), the impact
calculator (Impact.calc) and the exceedance-frequency curve builder
(Impact.calc_freq_curve), with exact rational arithmetic in place of
floating point.  Sparse event-by-centroid matrices are lists of rows with
missing cells read as 0.
-/

namespace Climada

/-- Entry of an event-by-centroid matrix stored as a list of rows; cells
outside the stored rows and columns read as 0 (sparse-matrix convention). -/
def mat (m : List (List ℚ)) (e c : Nat) : ℚ :=
  (m.getD e []).getD c 0

/-- Exposures: co-indexed per-asset arrays.  The field `assigned` holds the
centroid index assigned to each exposure for the hazard type at hand;
a negative entry means unassigned. -/
structure Exposures where
  value : List ℚ
  deductible : List ℚ
  cover : List ℚ
  impact_id : List Nat
  assigned : List Int
deriving DecidableEq

/-- Impact function (vulnerability curve): id, intensity breakpoints and
co-indexed mean-damage-ratio and probability-of-affection values. -/
structure ImpactFunc where
  id : Nat
  intensity : List ℚ
  mdr : List ℚ
  paa : List ℚ
deriving DecidableEq

/-- Piecewise-linear interpolation over (x, f) breakpoint pairs with flat
extrapolation at the two boundaries: the semantics of numpy.interp on a
sorted breakpoint list. -/
def interpSeg (x : ℚ) : List (ℚ × ℚ) → ℚ
  | [] => 0
  | [(_, f0)] => f0
  | (x0, f0) :: (x1, f1) :: ps =>
    if x ≤ x0 then f0
    else if x ≤ x1 then f0 + (f1 - f0) * (x - x0) / (x1 - x0)
    else interpSeg x ((x1, f1) :: ps)

/-- Modelled from the spec: ImpactFunc.calc_mdr is called by _one_exposure
but implemented outside the source file; per spec 4.1 it interpolates the
mean damage ratio over the function's breakpoints. -/
def ImpactFunc.calc_mdr (f : ImpactFunc) (inten : ℚ) : ℚ :=
  interpSeg inten (f.intensity.zip f.mdr)

/-- Interpolated probability of affection, as computed inline by
_one_exposure via numpy.interp over the paa breakpoints. -/
def ImpactFunc.calc_paa (f : ImpactFunc) (inten : ℚ) : ℚ :=
  interpSeg inten (f.intensity.zip f.paa)

/-- Hazard: hazard type, per-event annual frequency, and sparse
event-by-centroid intensity and fraction matrices. -/
structure Hazard where
  haz_type : String
  frequency : List ℚ
  intensity : List (List ℚ)
  fraction : List (List ℚ)
deriving DecidableEq

/-- Modelled from the spec: the impact-function set maps hazard types to
impact functions; its lookup get_func (only called, never defined, in the
source file) returns the functions registered for a hazard type. -/
structure ImpactFuncSet where
  funcs : List (String × ImpactFunc)
deriving DecidableEq

/-- Modelled from the spec: functions registered for hazard type `ht`. -/
def ImpactFuncSet.get_func (s : ImpactFuncSet) (ht : String) : List ImpactFunc :=
  (s.funcs.filter (fun p => p.1 == ht)).map Prod.snd

/-- Assigned centroid of exposure `iexp` for the hazard type at hand
(line 228 of the source: int(exposures.assigned[haz_type][iexp])). -/
def assignedCentroid (exposures : Exposures) (iexp : Nat) : Nat :=
  (exposures.assigned.getD iexp 0).toNat

/-- Indices of the events whose intensity at centroid `icen` is nonzero
(line 231 of the source: hazard.intensity[:, icen].nonzero()[0]). -/
def eventRow (hazard : Hazard) (icen : Nat) : List Nat :=
  (List.range hazard.intensity.length).filter
    (fun e => mat hazard.intensity e icen != 0)

/-- Pre-clipping impact of exposure `iexp`: exposure value times
interpolated mean damage ratio times affected fraction, at each relevant
event (line 238 of the source). -/
def rawImpact (iexp : Nat) (exposures : Exposures) (hazard : Hazard)
    (imp_fun : ImpactFunc) : List ℚ :=
  (eventRow hazard (assignedCentroid exposures iexp)).map (fun e =>
    exposures.value.getD iexp 0 *
      imp_fun.calc_mdr (mat hazard.intensity e (assignedCentroid exposures iexp)) *
      mat hazard.fraction e (assignedCentroid exposures iexp))

/-- Embedding of Impact._one_exposure: the relevant event indices and the
per-event impact for one exposure, with deductible/cover clipping applied
only when the impact is not identically zero and the exposure has a
positive deductible or a cover below its value. -/
def Impact._one_exposure (iexp : Nat) (exposures : Exposures) (hazard : Hazard)
    (imp_fun : ImpactFunc) : List Nat × List ℚ :=
  let icen := assignedCentroid exposures iexp
  let event_row := eventRow hazard icen
  let impact := rawImpact iexp exposures hazard imp_fun
  if impact.any (fun v => v != 0) then
    if 0 < exposures.deductible.getD iexp 0 ∨
        exposures.cover.getD iexp 0 < exposures.value.getD iexp 0 then
      (event_row,
        List.zipWith
          (fun im iv =>
            min (max (im - exposures.deductible.getD iexp 0 * imp_fun.calc_paa iv) 0)
              (exposures.cover.getD iexp 0))
          impact (event_row.map (fun e => mat hazard.intensity e icen)))
    else (event_row, impact)
  else (event_row, impact)

/-- List with the entry at one index incremented (in-place += of the
source); indices past the end leave the list unchanged. -/
def updAdd : List ℚ → Nat → ℚ → List ℚ
  | [], _, _ => []
  | x :: xs, 0, v => (x + v) :: xs
  | x :: xs, i + 1, v => x :: updAdd xs i v

/-- Scatter-add: at_event[event_row] += impact of the source. -/
def addAt (l : List ℚ) (idxs : List Nat) (vals : List ℚ) : List ℚ :=
  (idxs.zip vals).foldl (fun acc p => updAdd acc p.1 p.2) l

/-- Mutable state of the main loop of Impact.calc. -/
structure CalcState where
  at_event : List ℚ
  eai_exp : List ℚ
  tot_value : ℚ
deriving DecidableEq

/-- Frequencies of the events listed in `event_row`. -/
def eventFreq (hazard : Hazard) (event_row : List Nat) : List ℚ :=
  event_row.map (fun e => hazard.frequency.getD e 0)

/-- One iteration of the inner loop of Impact.calc (lines 179-188 of the
source): accumulate one exposure's impact into the running state. -/
def expStep (exposures : Exposures) (hazard : Hazard) (imp_fun : ImpactFunc)
    (st : CalcState) (iexp : Nat) : CalcState :=
  let r := Impact._one_exposure iexp exposures hazard imp_fun
  { at_event := addAt st.at_event r.1 r.2,
    eai_exp := updAdd st.eai_exp iexp
      (List.zipWith (fun a b => a * b) r.2 (eventFreq hazard r.1)).sum,
    tot_value := st.tot_value + exposures.value.getD iexp 0 }

/-- Eligible exposures whose impact_id equals the id of `imp_fun`
(line 176 of the source). -/
def matchedExposures (exposures : Exposures) (exp_idx : List Nat)
    (imp_fun : ImpactFunc) : List Nat :=
  exp_idx.filter (fun i => exposures.impact_id.getD i 0 == imp_fun.id)

/-- One iteration of the outer loop of Impact.calc: process every eligible
exposure carrying this impact function. -/
def funStep (exposures : Exposures) (hazard : Hazard) (exp_idx : List Nat)
    (st : CalcState) (imp_fun : ImpactFunc) : CalcState :=
  (matchedExposures exposures exp_idx imp_fun).foldl
    (expStep exposures hazard imp_fun) st

/-- Eligible exposure indices: positive value and non-negative assigned
centroid (lines 158-159 of the source). -/
def selectExposures (exposures : Exposures) : List Nat :=
  (List.range exposures.value.length).filter (fun i =>
    decide (0 < exposures.value.getD i 0) &&
      decide (0 ≤ exposures.assigned.getD i (-1)))

/-- Result of one Impact.calc run (the fields of the Impact object that
calc populates with computed values). -/
structure ImpactResult where
  frequency : List ℚ
  at_event : List ℚ
  eai_exp : List ℚ
  tot_value : ℚ
  aai_agg : ℚ
deriving DecidableEq

/-- Embedding of Impact.calc (lines 114-190 of the source). -/
def Impact.«calc» (exposures : Exposures) (impact_funcs : ImpactFuncSet)
    (hazard : Hazard) : ImpactResult :=
  let exp_idx := selectExposures exposures
  if exp_idx.isEmpty then
    { frequency := hazard.frequency,
      at_event := List.replicate hazard.intensity.length 0,
      eai_exp := List.replicate exposures.value.length 0,
      tot_value := 0, aai_agg := 0 }
  else
    let st := (impact_funcs.get_func hazard.haz_type).foldl
      (funStep exposures hazard exp_idx)
      ⟨List.replicate hazard.intensity.length 0,
        List.replicate exposures.value.length 0, 0⟩
    { frequency := hazard.frequency,
      at_event := st.at_event,
      eai_exp := st.eai_exp,
      tot_value := st.tot_value,
      aai_agg := (List.zipWith (fun a b => a * b) st.at_event hazard.frequency).sum }

/-- Descending order on event indices keyed by their at_event value. -/
def descRel (l : List ℚ) (i j : Nat) : Prop :=
  l.getD j 0 ≤ l.getD i 0

instance (l : List ℚ) : DecidableRel (descRel l) := fun i j =>
  inferInstanceAs (Decidable (l.getD j 0 ≤ l.getD i 0))

instance (l : List ℚ) : IsTotal Nat (descRel l) :=
  ⟨fun i j => le_total (l.getD j 0) (l.getD i 0)⟩

instance (l : List ℚ) : IsTrans Nat (descRel l) :=
  ⟨fun _ _ _ h1 h2 => le_trans h2 h1⟩

/-- Event indices sorted by impact, descending (line 102 of the source:
np.argsort(at_event)[::-1], with a deterministic tie-break). -/
def sortIdxs (at_event : List ℚ) : List Nat :=
  List.insertionSort (descRel at_event) (List.range at_event.length)

/-- Running cumulative sums starting from `acc`. -/
def cumsumFrom (acc : ℚ) : List ℚ → List ℚ
  | [] => []
  | x :: xs => (acc + x) :: cumsumFrom (acc + x) xs

/-- Cumulative sums (np.cumsum, line 104 of the source). -/
def cumsum (l : List ℚ) : List ℚ := cumsumFrom 0 l

/-- Reciprocal of an exceedance frequency; 0 maps to the infinite return
period, the floating-point 1/0 = inf of the source (line 106). -/
def invFreq (q : ℚ) : WithTop ℚ :=
  if q = 0 then ⊤ else ((1 / q : ℚ) : WithTop ℚ)

/-- Impact exceedance-frequency curve: the computed fields return_per and
impact of the ImpactFreqCurve class. -/
structure ImpactFreqCurve where
  return_per : List (WithTop ℚ)
  impact : List ℚ
deriving DecidableEq

/-- Cumulative exceedance frequency per descending-impact rank. -/
def exceedFreq (imp : ImpactResult) : List ℚ :=
  cumsum ((sortIdxs imp.at_event).map (fun i => imp.frequency.getD i 0))

/-- Embedding of Impact.calc_freq_curve (lines 94-112 of the source). -/
def Impact.calc_freq_curve (imp : ImpactResult) : ImpactFreqCurve :=
  { return_per := (exceedFreq imp).map invFreq,
    impact := (sortIdxs imp.at_event).map (fun i => imp.at_event.getD i 0) }

/-- Exposure index `i` carries the id of some impact function in `haz_imp`. -/
def matchedBy (exposures : Exposures) (haz_imp : List ImpactFunc) (i : Nat) : Bool :=
  haz_imp.any (fun f => exposures.impact_id.getD i 0 == f.id)

/-- End-to-end example exposures: one asset, value 100, deductible 0,
cover 100, impact function id 1, assigned centroid 0. -/
def c2_exposures : Exposures := ⟨[100], [0], [100], [1], [0]⟩

/-- End-to-end example impact function: breakpoints 0 and 10, mdr and paa
both going 0 to 1. -/
def c2_imp_fun : ImpactFunc := ⟨1, [0, 10], [0, 1], [0, 1]⟩

/-- End-to-end example impact-function set. -/
def c2_funcs : ImpactFuncSet := ⟨[("TC", c2_imp_fun)]⟩

/-- End-to-end example hazard: two events of frequencies 1/10 and 1/100,
intensities 5 and 10 at the single centroid, fraction 1 for both. -/
def c2_hazard : Hazard := ⟨"TC", [1/10, 1/100], [[5], [10]], [[1], [1]]⟩

/-- Impact function with a mean damage ratio reaching 2 (allowed by the
mdr ≥ 0 precondition) at intensity 10. -/
def c3_imp_fun : ImpactFunc := ⟨1, [0, 10], [0, 2], [0, 1]⟩

/-- One event of intensity 10 and fraction 1 at the single centroid. -/
def c3_hazard : Hazard := ⟨"TC", [1], [[10]], [[1]]⟩

/-- Eligible exposure whose impact_id 5 matches no registered function. -/
def c4_exposures : Exposures := ⟨[100], [0], [100], [5], [0]⟩

/-- Single exposure with value 0: no exposure is eligible. -/
def c5_exposures : Exposures := ⟨[0], [0], [0], [1], [0]⟩

/-- Hazard with one event, intensity 3 at centroid 0 and 0 at centroid 1;
fraction 5 at the zero-intensity centroid. -/
def c6_hazard_a : Hazard := ⟨"TC", [1], [[3, 0]], [[1, 5]]⟩

/-- Same hazard as c6_hazard_a except at the zero-intensity cell, where
the fraction is 7 instead of 5. -/
def c6_hazard_b : Hazard := ⟨"TC", [1], [[3, 0]], [[1, 7]]⟩

/-- Exposure with cover 200 above value; the hazard fraction is -1,
outside the fraction data-model range but unconstrained by the claim. -/
def c8_exposures : Exposures := ⟨[100], [0], [200], [1], [0]⟩

/-- One event of intensity 10 with fraction -1 at the single centroid. -/
def c8_hazard : Hazard := ⟨"TC", [1], [[10]], [[-1]]⟩

/-- Impact result whose only (and hence most damaging) event has
frequency 0. -/
def c9_imp : ImpactResult := ⟨[0], [5], [0], 0, 0⟩

/-- Impact result with two events for the frequency-curve monotonicity
witness. -/
def c7_imp : ImpactResult := ⟨[1/2, 1/4], [3, 7], [], 0, 0⟩

end Climada

namespace Climada

/-- A getD value is either a member of the list or the default. -/
theorem getD_mem_or {α : Type} (l : List α) (i : Nat) (d : α) :
    l.getD i d ∈ l ∨ l.getD i d = d := by
  induction l generalizing i with
  | nil => right; rfl
  | cons x xs ih =>
    cases i with
    | zero => left; simp [List.getD]
    | succ n =>
      rcases ih n with h | h
      · left
        simpa [List.getD] using Or.inr (by simpa [List.getD] using h)
      · right
        simpa [List.getD] using h

/-- getD out of range returns the default. -/
theorem getD_of_le {α : Type} (l : List α) (i : Nat) (d : α)
    (h : l.length ≤ i) : l.getD i d = d := by
  simp [List.getD_eq_getElem?_getD, List.getElem?_eq_none h]

/-- Nonnegative entries give a nonnegative getD with default 0. -/
theorem getD_nonneg {l : List ℚ} (h : ∀ q ∈ l, 0 ≤ q) (i : Nat) :
    0 ≤ l.getD i 0 := by
  rcases getD_mem_or l i 0 with hm | hd
  · exact h _ hm
  · rw [hd]

/-- Every element of a zipWith comes from a pair of the input lists. -/
theorem mem_zipWith {α β γ : Type} {f : α → β → γ} :
    ∀ {l1 : List α} {l2 : List β} {c : γ}, c ∈ List.zipWith f l1 l2 →
      ∃ a ∈ l1, ∃ b ∈ l2, c = f a b := by
  intro l1
  induction l1 with
  | nil => intro l2 c h; simp at h
  | cons x xs ih =>
    intro l2 c h
    cases l2 with
    | nil => simp at h
    | cons y ys =>
      rcases List.mem_cons.1 h with h | h
      · exact ⟨x, List.mem_cons_self _ _, y, List.mem_cons_self _ _, h⟩
      · rcases ih h with ⟨a, ha, b, hb, hc⟩
        exact ⟨a, List.mem_cons_of_mem _ ha, b, List.mem_cons_of_mem _ hb, hc⟩

/-- Reading the entries of a list back off by index reproduces the list. -/
theorem map_getD_range {α : Type} (l : List α) (d : α) :
    (List.range l.length).map (fun i => l.getD i d) = l := by
  induction l with
  | nil => rfl
  | cons x xs ih =>
    rw [List.length_cons, List.range_succ_eq_map, List.map_cons, List.map_map]
    have h2 : ((fun i => (x :: xs).getD i d) ∘ Nat.succ) = fun i => xs.getD i d := by
      funext i
      simp [List.getD]
    rw [h2, ih]
    simp [List.getD]

/-- updAdd preserves the length of the list. -/
theorem updAdd_length (l : List ℚ) (i : Nat) (v : ℚ) :
    (updAdd l i v).length = l.length := by
  induction l generalizing i with
  | nil => rfl
  | cons x xs ih =>
    cases i with
    | zero => rfl
    | succ n => simpa [updAdd] using ih n

/-- updAdd at an in-range index adds its value to the sum of the list. -/
theorem sum_updAdd (l : List ℚ) (i : Nat) (v : ℚ) (h : i < l.length) :
    (updAdd l i v).sum = l.sum + v := by
  induction l generalizing i with
  | nil => simp at h
  | cons x xs ih =>
    cases i with
    | zero => simp [updAdd]; ring
    | succ n =>
      have := ih n (by simpa using h)
      simp [updAdd, this]
      ring

/-- updAdd leaves entries at other indices unchanged. -/
theorem updAdd_getD_ne (l : List ℚ) (i j : Nat) (v : ℚ) (h : i ≠ j) :
    (updAdd l i v).getD j 0 = l.getD j 0 := by
  induction l generalizing i j with
  | nil => rfl
  | cons x xs ih =>
    cases i with
    | zero =>
      cases j with
      | zero => exact absurd rfl h
      | succ m => simp [updAdd, List.getD]
    | succ n =>
      cases j with
      | zero => simp [updAdd, List.getD]
      | succ m =>
        simp only [updAdd, List.getD_cons_succ]
        exact ih n m (fun hnm => h (by rw [hnm]))

/-- updAdd with a nonnegative increment preserves entrywise nonnegativity. -/
theorem updAdd_nonneg (l : List ℚ) (i : Nat) (v : ℚ)
    (hl : ∀ q ∈ l, 0 ≤ q) (hv : 0 ≤ v) : ∀ q ∈ updAdd l i v, 0 ≤ q := by
  induction l generalizing i with
  | nil => intro q hq; simp [updAdd] at hq
  | cons x xs ih =>
    cases i with
    | zero =>
      intro q hq
      rcases List.mem_cons.1 hq with h | h
      · subst h
        exact add_nonneg (hl x (List.mem_cons_self _ _)) hv
      · exact hl q (List.mem_cons_of_mem _ h)
    | succ n =>
      intro q hq
      rcases List.mem_cons.1 hq with h | h
      · subst h
        exact hl q (List.mem_cons_self _ _)
      · exact ih n (fun r hr => hl r (List.mem_cons_of_mem _ hr)) q h

end Climada

namespace Climada

/-- addAt over a head index/value pair. -/
theorem addAt_cons (l : List ℚ) (i : Nat) (v : ℚ) (idxs : List Nat)
    (vals : List ℚ) :
    addAt l (i :: idxs) (v :: vals) = addAt (updAdd l i v) idxs vals := rfl

/-- addAt with no indices is the identity. -/
theorem addAt_nil (l : List ℚ) (vals : List ℚ) : addAt l [] vals = l := rfl

/-- addAt with no values is the identity. -/
theorem addAt_nil_vals (l : List ℚ) (idxs : List Nat) : addAt l idxs [] = l := by
  cases idxs <;> rfl

/-- addAt preserves the length of the list. -/
theorem addAt_length (idxs : List Nat) (vals : List ℚ) (l : List ℚ) :
    (addAt l idxs vals).length = l.length := by
  induction idxs generalizing l vals with
  | nil => rfl
  | cons i is ih =>
    cases vals with
    | nil => rw [addAt_nil_vals]
    | cons v vs => rw [addAt_cons, ih, updAdd_length]

/-- Scatter-adding nonnegative values preserves entrywise nonnegativity. -/
theorem addAt_nonneg (idxs : List Nat) (vals : List ℚ) (l : List ℚ)
    (hl : ∀ q ∈ l, 0 ≤ q) (hv : ∀ q ∈ vals, 0 ≤ q) :
    ∀ q ∈ addAt l idxs vals, 0 ≤ q := by
  induction idxs generalizing l vals with
  | nil => simpa [addAt_nil] using fun q hq => hl q hq
  | cons i is ih =>
    cases vals with
    | nil => simpa [addAt_nil_vals] using fun q hq => hl q hq
    | cons v vs =>
      rw [addAt_cons]
      exact ih vs _
        (updAdd_nonneg l i v hl (hv v (List.mem_cons_self _ _)))
        (fun q hq => hv q (List.mem_cons_of_mem _ hq))

/-- updAdd at an in-range index adds the increment weighted by the
corresponding weight to the dot product with a weight list. -/
theorem zipWith_sum_updAdd (l : List ℚ) (i : Nat) (v : ℚ) (f : List ℚ)
    (h : i < l.length) :
    (List.zipWith (fun a b => a * b) (updAdd l i v) f).sum
      = (List.zipWith (fun a b => a * b) l f).sum + v * f.getD i 0 := by
  induction l generalizing i f with
  | nil => simp at h
  | cons x xs ihl =>
    cases f with
    | nil =>
      cases i with
      | zero => simp [updAdd, List.getD]
      | succ n => simp [updAdd, List.getD]
    | cons y ys =>
      cases i with
      | zero => simp [updAdd, List.getD]; ring
      | succ n =>
        simp only [updAdd, List.zipWith_cons_cons, List.sum_cons,
          List.getD_cons_succ]
        rw [ihl n ys (by simpa using h)]
        ring

/-- Scatter-adding into in-range positions adds the frequency-weighted
values to the dot product of the list with a weight list. -/
theorem zipWith_sum_addAt (idxs : List Nat) (vals : List ℚ) (l f : List ℚ)
    (h : ∀ e ∈ idxs, e < l.length) :
    (List.zipWith (fun a b => a * b) (addAt l idxs vals) f).sum
      = (List.zipWith (fun a b => a * b) l f).sum
        + (List.zipWith (fun v e => v * f.getD e 0) vals idxs).sum := by
  induction idxs generalizing l vals with
  | nil => simp [addAt_nil]
  | cons i is ih =>
    cases vals with
    | nil => simp [addAt_nil_vals]
    | cons v vs =>
      rw [addAt_cons, ih vs (updAdd l i v)
        (fun e he => by
          rw [updAdd_length]
          exact h e (List.mem_cons_of_mem _ he))]
      rw [zipWith_sum_updAdd l i v f (h i (List.mem_cons_self _ _))]
      simp only [List.zipWith_cons_cons, List.sum_cons]
      ring

/-- Linear interpolation stays within lower and upper bounds of the
interpolated values (with 0 for the empty breakpoint list). -/
theorem interpSeg_bounds (x lo hi : ℚ) (hlo : lo ≤ 0) (hhi : 0 ≤ hi) :
    ∀ ps : List (ℚ × ℚ), (∀ p ∈ ps, lo ≤ p.2 ∧ p.2 ≤ hi) →
      lo ≤ interpSeg x ps ∧ interpSeg x ps ≤ hi
  | [] => fun _ => ⟨hlo, hhi⟩
  | [(x0, f0)] => fun h => by
    simpa [interpSeg] using h (x0, f0) (List.mem_cons_self _ _)
  | (x0, f0) :: (x1, f1) :: ps => fun h => by
    have h0 := h (x0, f0) (List.mem_cons_self _ _)
    have h1 := h (x1, f1) (List.mem_cons_of_mem _ (List.mem_cons_self _ _))
    have hrest : ∀ p ∈ (x1, f1) :: ps, lo ≤ p.2 ∧ p.2 ≤ hi := by
      intro p hp
      exact h p (List.mem_cons_of_mem _ hp)
    simp only [interpSeg]
    by_cases hx0 : x ≤ x0
    · simpa [hx0] using h0
    · by_cases hx1 : x ≤ x1
      · have hlt0 : x0 < x := lt_of_not_le hx0
        have hd : 0 < x1 - x0 := by linarith
        have ht0 : 0 < (x - x0) / (x1 - x0) := div_pos (by linarith) hd
        have ht1 : (x - x0) / (x1 - x0) ≤ 1 := by
          rw [div_le_one hd]
          linarith
        have heq : f0 + (f1 - f0) * (x - x0) / (x1 - x0)
            = (1 - (x - x0) / (x1 - x0)) * f0 + ((x - x0) / (x1 - x0)) * f1 := by
          field_simp
          ring
        rw [if_neg hx0, if_pos hx1, heq]
        constructor
        · nlinarith [h0.1, h1.1]
        · nlinarith [h0.2, h1.2]
      · rw [if_neg hx0, if_neg hx1]
        exact interpSeg_bounds x lo hi hlo hhi ((x1, f1) :: ps) hrest

/-- Matrix entries inherit entrywise lower bounds (with 0 for missing
cells). -/
theorem mat_nonneg (m : List (List ℚ)) (h : ∀ row ∈ m, ∀ q ∈ row, 0 ≤ q)
    (e c : Nat) : 0 ≤ mat m e c := by
  unfold mat
  rcases getD_mem_or m e [] with hm | hd
  · exact getD_nonneg (h _ hm) c
  · rw [hd]; rfl

/-- Matrix entries inherit entrywise upper bounds (for bounds above 0,
which also cover the missing cells). -/
theorem mat_le (m : List (List ℚ)) (b : ℚ) (hb : 0 ≤ b)
    (h : ∀ row ∈ m, ∀ q ∈ row, q ≤ b) (e c : Nat) : mat m e c ≤ b := by
  unfold mat
  rcases getD_mem_or m e [] with hm | hd
  · rcases getD_mem_or (m.getD e []) c 0 with hq | hq
    · exact h _ hm _ hq
    · rw [hq]; exact hb
  · rw [hd]; exact hb

/-- A nonzero matrix entry lies within the stored rows and columns. -/
theorem mat_ne_zero_bounds (m : List (List ℚ)) (e c : Nat)
    (h : mat m e c ≠ 0) : e < m.length ∧ c < (m.getD e []).length := by
  constructor
  · by_contra he
    exact h (by unfold mat; rw [getD_of_le m e [] (le_of_not_lt he)]; rfl)
  · by_contra hc
    exact h (by unfold mat; rw [getD_of_le _ c 0 (le_of_not_lt hc)])

/-- Every cumulative sum over nonnegative increments is at least the
starting accumulator. -/
theorem cumsumFrom_le (acc : ℚ) (l : List ℚ) (h : ∀ q ∈ l, 0 ≤ q) :
    ∀ y ∈ cumsumFrom acc l, acc ≤ y := by
  induction l generalizing acc with
  | nil => intro y hy; simp [cumsumFrom] at hy
  | cons x xs ih =>
    intro y hy
    rcases List.mem_cons.1 hy with hy | hy
    · subst hy
      have := h x (List.mem_cons_self _ _)
      linarith
    · have hx := h x (List.mem_cons_self _ _)
      have := ih (acc + x) (fun q hq => h q (List.mem_cons_of_mem _ hq)) y hy
      linarith

/-- Cumulative sums over nonnegative increments are sorted ascending. -/
theorem cumsumFrom_sorted (acc : ℚ) (l : List ℚ) (h : ∀ q ∈ l, 0 ≤ q) :
    List.Sorted (fun a b : ℚ => a ≤ b) (cumsumFrom acc l) := by
  induction l generalizing acc with
  | nil => exact List.sorted_nil
  | cons x xs ih =>
    rw [cumsumFrom, List.sorted_cons]
    refine ⟨?_, ih (acc + x) (fun q hq => h q (List.mem_cons_of_mem _ hq))⟩
    intro b hb
    exact cumsumFrom_le (acc + x) xs
      (fun q hq => h q (List.mem_cons_of_mem _ hq)) b hb

/-- Cumulative sums over nonnegative increments stay nonnegative when the
accumulator starts nonnegative. -/
theorem cumsumFrom_nonneg (acc : ℚ) (l : List ℚ) (hacc : 0 ≤ acc)
    (h : ∀ q ∈ l, 0 ≤ q) : ∀ y ∈ cumsumFrom acc l, 0 ≤ y := by
  intro y hy
  have := cumsumFrom_le acc l h y hy
  linarith

/-- The return-period map is antitone on nonnegative frequencies, with the
infinite return period at frequency 0 at the top. -/
theorem invFreq_antitone {a b : ℚ} (ha : 0 ≤ a) (hab : a ≤ b) :
    invFreq b ≤ invFreq a := by
  unfold invFreq
  by_cases ha0 : a = 0
  · rw [if_pos ha0]
    exact le_top
  · have hapos : 0 < a := lt_of_le_of_ne ha (Ne.symm ha0)
    have hb0 : b ≠ 0 := ne_of_gt (lt_of_lt_of_le hapos hab)
    rw [if_neg ha0, if_neg hb0]
    exact_mod_cast one_div_le_one_div_of_le hapos hab

/-- Mapping invFreq over an ascending list of nonnegative frequencies
yields a descending list of return periods. -/
theorem sorted_map_invFreq (l : List ℚ) (h0 : ∀ q ∈ l, 0 ≤ q)
    (hs : List.Sorted (fun a b : ℚ => a ≤ b) l) :
    List.Sorted (fun a b : WithTop ℚ => b ≤ a) (l.map invFreq) := by
  induction l with
  | nil => exact List.sorted_nil
  | cons x xs ih =>
    rw [List.map_cons, List.sorted_cons]
    rw [List.sorted_cons] at hs
    constructor
    · intro b hb
      rcases List.mem_map.1 hb with ⟨y, hy, rfl⟩
      exact invFreq_antitone (h0 x (List.mem_cons_self _ _)) (hs.1 y hy)
    · exact ih (fun q hq => h0 q (List.mem_cons_of_mem _ hq)) hs.2

/-- getD on a replicate of zeros is zero at every index. -/
theorem getD_replicate_zero (n i : Nat) :
    (List.replicate n (0 : ℚ)).getD i 0 = 0 := by
  rcases getD_mem_or (List.replicate n (0 : ℚ)) i 0 with hm | hd
  · exact List.eq_of_mem_replicate hm
  · exact hd

end Climada

namespace Climada

/-- The relevant-event list returned by _one_exposure is the nonzero
intensity row at the assigned centroid, on every branch. -/
theorem _one_exposure_fst (iexp : Nat) (exposures : Exposures)
    (hazard : Hazard) (imp_fun : ImpactFunc) :
    (Impact._one_exposure iexp exposures hazard imp_fun).1
      = eventRow hazard (assignedCentroid exposures iexp) := by
  unfold Impact._one_exposure
  dsimp only
  split <;> first
  | rfl
  | (split <;> rfl)

/-- Relevant events are in range of the hazard's event count. -/
theorem eventRow_lt (hazard : Hazard) (icen : Nat) (e : Nat)
    (he : e ∈ eventRow hazard icen) : e < hazard.intensity.length := by
  unfold eventRow at he
  exact List.mem_range.1 (List.mem_filter.1 he).1

/-- Membership in the relevant-event list characterized by nonzero
intensity at the centroid. -/
theorem mem_eventRow (hazard : Hazard) (icen : Nat) (e : Nat) :
    e ∈ eventRow hazard icen ↔
      e < hazard.intensity.length ∧ mat hazard.intensity e icen ≠ 0 := by
  unfold eventRow
  rw [List.mem_filter, List.mem_range]
  simp

/-- Eligible exposure indices are in range of the exposure count. -/
theorem selectExposures_lt (exposures : Exposures) (i : Nat)
    (h : i ∈ selectExposures exposures) : i < exposures.value.length := by
  unfold selectExposures at h
  exact List.mem_range.1 (List.mem_filter.1 h).1

/-- Matched exposures are a subset of the eligible exposures. -/
theorem matchedExposures_sub (exposures : Exposures) (exp_idx : List Nat)
    (imp_fun : ImpactFunc) (i : Nat)
    (h : i ∈ matchedExposures exposures exp_idx imp_fun) : i ∈ exp_idx :=
  (List.mem_filter.1 h).1

/-- A dot product against a zero vector vanishes. -/
theorem zipWith_replicate_zero_sum (n : Nat) (f : List ℚ) :
    (List.zipWith (fun a b => a * b) (List.replicate n (0 : ℚ)) f).sum = 0 := by
  apply List.sum_eq_zero
  intro x hx
  rcases mem_zipWith hx with ⟨a, ha, b, hb, rfl⟩
  rw [List.eq_of_mem_replicate ha, zero_mul]

/-- One inner-loop step preserves the conservation invariant: the sum of
eai_exp equals the dot product of at_event with the frequencies. -/
theorem expStep_inv (exposures : Exposures) (hazard : Hazard)
    (imp_fun : ImpactFunc) (st : CalcState) (iexp : Nat)
    (hn : st.at_event.length = hazard.intensity.length)
    (hm : iexp < st.eai_exp.length)
    (hsum : st.eai_exp.sum
      = (List.zipWith (fun a b => a * b) st.at_event hazard.frequency).sum) :
    (expStep exposures hazard imp_fun st iexp).at_event.length
        = hazard.intensity.length ∧
    (expStep exposures hazard imp_fun st iexp).eai_exp.length
        = st.eai_exp.length ∧
    (expStep exposures hazard imp_fun st iexp).eai_exp.sum
      = (List.zipWith (fun a b => a * b)
          (expStep exposures hazard imp_fun st iexp).at_event
          hazard.frequency).sum := by
  have hfst := _one_exposure_fst iexp exposures hazard imp_fun
  have hlt : ∀ e ∈ (Impact._one_exposure iexp exposures hazard imp_fun).1,
      e < st.at_event.length := by
    intro e he
    rw [hfst] at he
    rw [hn]
    exact eventRow_lt hazard _ e he
  refine ⟨?_, ?_, ?_⟩
  · show (addAt st.at_event _ _).length = _
    rw [addAt_length, hn]
  · show (updAdd st.eai_exp iexp _).length = _
    rw [updAdd_length]
  · show (updAdd st.eai_exp iexp _).sum
      = (List.zipWith (fun a b => a * b) (addAt st.at_event _ _) _).sum
    rw [sum_updAdd _ _ _ hm,
      zipWith_sum_addAt _ _ st.at_event hazard.frequency hlt, hsum]
    congr 1
    simp [eventFreq, List.zipWith_map_right]

/-- The inner loop over a list of exposure indices preserves the
conservation invariant. -/
theorem foldl_expStep_inv (exposures : Exposures) (hazard : Hazard)
    (imp_fun : ImpactFunc) (lst : List Nat) (st : CalcState)
    (hn : st.at_event.length = hazard.intensity.length)
    (hm : ∀ i ∈ lst, i < st.eai_exp.length)
    (hsum : st.eai_exp.sum
      = (List.zipWith (fun a b => a * b) st.at_event hazard.frequency).sum) :
    (lst.foldl (expStep exposures hazard imp_fun) st).at_event.length
        = hazard.intensity.length ∧
    (lst.foldl (expStep exposures hazard imp_fun) st).eai_exp.length
        = st.eai_exp.length ∧
    (lst.foldl (expStep exposures hazard imp_fun) st).eai_exp.sum
      = (List.zipWith (fun a b => a * b)
          (lst.foldl (expStep exposures hazard imp_fun) st).at_event
          hazard.frequency).sum := by
  induction lst generalizing st with
  | nil => exact ⟨hn, rfl, hsum⟩
  | cons i is ih =>
    have hstep := expStep_inv exposures hazard imp_fun st i hn
      (hm i (List.mem_cons_self _ _)) hsum
    have := ih (expStep exposures hazard imp_fun st i) hstep.1
      (fun j hj => by
        rw [hstep.2.1]
        exact hm j (List.mem_cons_of_mem _ hj))
      hstep.2.2
    rw [List.foldl_cons]
    exact ⟨this.1, by rw [this.2.1, hstep.2.1], this.2.2⟩

/-- The outer loop over the impact functions preserves the conservation
invariant. -/
theorem foldl_funStep_inv (exposures : Exposures) (hazard : Hazard)
    (exp_idx : List Nat) (fs : List ImpactFunc) (st : CalcState)
    (hn : st.at_event.length = hazard.intensity.length)
    (hm : ∀ i ∈ exp_idx, i < st.eai_exp.length)
    (hsum : st.eai_exp.sum
      = (List.zipWith (fun a b => a * b) st.at_event hazard.frequency).sum) :
    (fs.foldl (funStep exposures hazard exp_idx) st).at_event.length
        = hazard.intensity.length ∧
    (fs.foldl (funStep exposures hazard exp_idx) st).eai_exp.length
        = st.eai_exp.length ∧
    (fs.foldl (funStep exposures hazard exp_idx) st).eai_exp.sum
      = (List.zipWith (fun a b => a * b)
          (fs.foldl (funStep exposures hazard exp_idx) st).at_event
          hazard.frequency).sum := by
  induction fs generalizing st with
  | nil => exact ⟨hn, rfl, hsum⟩
  | cons f fs ih =>
    have hstep := foldl_expStep_inv exposures hazard f
      (matchedExposures exposures exp_idx f) st hn
      (fun i hi => hm i (matchedExposures_sub exposures exp_idx f i hi)) hsum
    have := ih (funStep exposures hazard exp_idx st f) hstep.1
      (fun j hj => by
        show j < (List.foldl _ st _).eai_exp.length
        rw [hstep.2.1]
        exact hm j hj)
      hstep.2.2
    rw [List.foldl_cons]
    exact ⟨this.1, by rw [this.2.1]; exact hstep.2.1, this.2.2⟩

/-- C1 (conservation): for every input, the sum over all exposures of
eai_exp equals aai_agg exactly in exact arithmetic, since both re-index
the same per-(exposure, event) impact-times-frequency products. -/
theorem C1_conservation (exposures : Exposures) (impact_funcs : ImpactFuncSet)
    (hazard : Hazard) :
    (Impact.«calc» exposures impact_funcs hazard).eai_exp.sum
      = (Impact.«calc» exposures impact_funcs hazard).aai_agg := by
  unfold Impact.«calc»
  by_cases hemp : (selectExposures exposures).isEmpty
  · simp [hemp, List.sum_replicate]
  · simp only [hemp, Bool.false_eq_true, if_false]
    have := foldl_funStep_inv exposures hazard (selectExposures exposures)
      (impact_funcs.get_func hazard.haz_type)
      ⟨List.replicate hazard.intensity.length 0,
        List.replicate exposures.value.length 0, 0⟩
      (by simp) (fun i hi => by
        simpa using selectExposures_lt exposures i hi)
      (by simp [zipWith_replicate_zero_sum])
    exact this.2.2

end Climada

namespace Climada

/-- C2 (end-to-end example): one exposure of value 100, deductible 0 and
cover 100 with the 0-to-10 ramp vulnerability curve, and two events of
frequencies 1/10 and 1/100 with intensities 5 and 10 and fraction 1 at the
assigned centroid, produce at_event = [50, 100], eai_exp = [6],
aai_agg = 6, tot_value = 100, and a frequency curve with impact [100, 50],
cumulative exceedance frequency [1/100, 11/100] and return periods
100 and 100/11. -/
theorem C2_end_to_end :
    (Impact.«calc» c2_exposures c2_funcs c2_hazard).at_event = [50, 100] ∧
    (Impact.«calc» c2_exposures c2_funcs c2_hazard).eai_exp = [6] ∧
    (Impact.«calc» c2_exposures c2_funcs c2_hazard).aai_agg = 6 ∧
    (Impact.«calc» c2_exposures c2_funcs c2_hazard).tot_value = 100 ∧
    (Impact.calc_freq_curve (Impact.«calc» c2_exposures c2_funcs c2_hazard)).impact
      = [100, 50] ∧
    exceedFreq (Impact.«calc» c2_exposures c2_funcs c2_hazard) = [1/100, 11/100] ∧
    (Impact.calc_freq_curve (Impact.«calc» c2_exposures c2_funcs c2_hazard)).return_per
      = [((100 : ℚ) : WithTop ℚ), ((100 / 11 : ℚ) : WithTop ℚ)] := by
  with_unfolding_all decide

/-- C5 (empty eligible set): calc selects exactly the exposures with
positive value and nonnegative assigned centroid; when no exposure
qualifies, calc returns normally with all-zero arrays sized to the
hazard's event count and the exposure count, tot_value 0 and aai_agg 0. -/
theorem C5_empty_selection (exposures : Exposures)
    (impact_funcs : ImpactFuncSet) (hazard : Hazard)
    (hempty : ∀ i < exposures.value.length,
      ¬(0 < exposures.value.getD i 0 ∧ 0 ≤ exposures.assigned.getD i (-1))) :
    (∀ i, i ∈ selectExposures exposures ↔
      i < exposures.value.length ∧ 0 < exposures.value.getD i 0 ∧
        0 ≤ exposures.assigned.getD i (-1)) ∧
    Impact.«calc» exposures impact_funcs hazard =
      { frequency := hazard.frequency,
        at_event := List.replicate hazard.intensity.length 0,
        eai_exp := List.replicate exposures.value.length 0,
        tot_value := 0, aai_agg := 0 } := by
  have hchar : ∀ i, i ∈ selectExposures exposures ↔
      i < exposures.value.length ∧ 0 < exposures.value.getD i 0 ∧
        0 ≤ exposures.assigned.getD i (-1) := by
    intro i
    unfold selectExposures
    rw [List.mem_filter, List.mem_range]
    simp [and_assoc]
  refine ⟨hchar, ?_⟩
  have hnil : selectExposures exposures = [] := by
    rw [List.eq_nil_iff_forall_not_mem]
    intro i hi
    have h := (hchar i).1 hi
    exact hempty i h.1 ⟨h.2.1, h.2.2⟩
  unfold Impact.«calc»
  rw [hnil]
  rfl

/-- C5 witness: a single exposure of value 0 is ineligible, and calc on it
returns the all-zero result. -/
theorem C5_empty_selection_witness :
    (∀ i < c5_exposures.value.length,
      ¬(0 < c5_exposures.value.getD i 0 ∧
          0 ≤ c5_exposures.assigned.getD i (-1))) ∧
    ((∀ i, i ∈ selectExposures c5_exposures ↔
      i < c5_exposures.value.length ∧ 0 < c5_exposures.value.getD i 0 ∧
        0 ≤ c5_exposures.assigned.getD i (-1)) ∧
    Impact.«calc» c5_exposures c2_funcs c2_hazard =
      { frequency := c2_hazard.frequency,
        at_event := List.replicate c2_hazard.intensity.length 0,
        eai_exp := List.replicate c5_exposures.value.length 0,
        tot_value := 0, aai_agg := 0 }) :=
  ⟨by with_unfolding_all decide,
    C5_empty_selection c5_exposures c2_funcs c2_hazard
      (by with_unfolding_all decide)⟩

/-- C9 (zero exceedance frequency): when the cumulative exceedance
frequency at some rank is 0, calc_freq_curve still returns, with the
infinite return period at that rank. -/
theorem C9_zero_frequency (imp : ImpactResult) (k : Nat)
    (hk : k < (exceedFreq imp).length)
    (h0 : (exceedFreq imp).getD k 0 = 0) :
    (Impact.calc_freq_curve imp).return_per.getD k 0 = ⊤ := by
  unfold Impact.calc_freq_curve
  have hk2 : k < ((exceedFreq imp).map invFreq).length := by simpa using hk
  rw [List.getD_eq_getElem?_getD, List.getElem?_eq_getElem hk2]
  rw [List.getD_eq_getElem?_getD, List.getElem?_eq_getElem hk] at h0
  simp only [Option.getD_some] at h0 ⊢
  rw [List.getElem_map]
  unfold invFreq
  rw [if_pos h0]

/-- C9 witness: an impact result whose single most-damaging event has
frequency 0 gets the infinite return period at rank 0. -/
theorem C9_zero_frequency_witness :
    0 < (exceedFreq c9_imp).length ∧ (exceedFreq c9_imp).getD 0 0 = 0 ∧
    (Impact.calc_freq_curve c9_imp).return_per.getD 0 0 = ⊤ :=
  ⟨by with_unfolding_all decide, by with_unfolding_all decide,
    C9_zero_frequency c9_imp 0 (by with_unfolding_all decide)
      (by with_unfolding_all decide)⟩

end Climada

namespace Climada

/-- The inner loop never touches the eai_exp entry of an unvisited index. -/
theorem foldl_expStep_eai_getD (exposures : Exposures) (hazard : Hazard)
    (imp_fun : ImpactFunc) (lst : List Nat) (st : CalcState) (i : Nat)
    (h : ∀ j ∈ lst, j ≠ i) :
    (lst.foldl (expStep exposures hazard imp_fun) st).eai_exp.getD i 0
      = st.eai_exp.getD i 0 := by
  induction lst generalizing st with
  | nil => rfl
  | cons j js ih =>
    rw [List.foldl_cons, ih _ (fun k hk => h k (List.mem_cons_of_mem _ hk))]
    show (updAdd st.eai_exp j _).getD i 0 = _
    exact updAdd_getD_ne _ j i _ (h j (List.mem_cons_self _ _))

/-- The outer loop never touches the eai_exp entry of an exposure whose
impact_id matches none of the impact functions. -/
theorem foldl_funStep_eai_getD (exposures : Exposures) (hazard : Hazard)
    (exp_idx : List Nat) (fs : List ImpactFunc) (st : CalcState) (i : Nat)
    (h : ∀ f ∈ fs, exposures.impact_id.getD i 0 ≠ f.id) :
    (fs.foldl (funStep exposures hazard exp_idx) st).eai_exp.getD i 0
      = st.eai_exp.getD i 0 := by
  induction fs generalizing st with
  | nil => rfl
  | cons f fs ih =>
    rw [List.foldl_cons, ih _ (fun g hg => h g (List.mem_cons_of_mem _ hg))]
    show ((matchedExposures exposures exp_idx f).foldl _ st).eai_exp.getD i 0 = _
    apply foldl_expStep_eai_getD
    intro j hj hji
    subst hji
    have hmem := (List.mem_filter.1 hj).2
    exact h f (List.mem_cons_self _ _) (by simpa using hmem)

/-- C4 counterexample: an eligible exposure (index 0 of c4_exposures, value
100) whose impact_id 5 matches none of the registered functions (the set
holds only id 1 for type TC) is silently skipped: calc returns the
all-zero result instead of raising an error. -/
theorem C4_missing_function_counterexample :
    0 ∈ selectExposures c4_exposures ∧
    c2_funcs.get_func c3_hazard.haz_type ≠ [] ∧
    (∀ f ∈ c2_funcs.get_func c3_hazard.haz_type,
      c4_exposures.impact_id.getD 0 0 ≠ f.id) ∧
    Impact.«calc» c4_exposures c2_funcs c3_hazard =
      { frequency := [1], at_event := [0], eai_exp := [0],
        tot_value := 0, aai_agg := 0 } := by
  with_unfolding_all decide

/-- C4 as amended: an exposure whose impact_function_id matches no impact
function of the hazard's type is silently skipped by calc: its eai_exp
entry stays 0 and no error is raised (calc always returns a result). -/
theorem C4_missing_function_silent_skip (exposures : Exposures)
    (impact_funcs : ImpactFuncSet) (hazard : Hazard) (i : Nat)
    (hno : ∀ f ∈ impact_funcs.get_func hazard.haz_type,
      exposures.impact_id.getD i 0 ≠ f.id) :
    (Impact.«calc» exposures impact_funcs hazard).eai_exp.getD i 0 = 0 := by
  unfold Impact.«calc»
  by_cases hemp : (selectExposures exposures).isEmpty = true
  · rw [if_pos hemp]
    exact getD_replicate_zero _ i
  · rw [if_neg hemp]
    dsimp only
    rw [foldl_funStep_eai_getD exposures hazard (selectExposures exposures)
      (impact_funcs.get_func hazard.haz_type) _ i hno]
    exact getD_replicate_zero _ i

/-- C4 witness: the amended statement instantiated at the counterexample
input. -/
theorem C4_missing_function_silent_skip_witness :
    (∀ f ∈ c2_funcs.get_func c3_hazard.haz_type,
      c4_exposures.impact_id.getD 0 0 ≠ f.id) ∧
    (Impact.«calc» c4_exposures c2_funcs c3_hazard).eai_exp.getD 0 0 = 0 :=
  ⟨by with_unfolding_all decide,
    C4_missing_function_silent_skip c4_exposures c2_funcs c3_hazard 0
      (by with_unfolding_all decide)⟩

/-- The inner loop adds the values of all visited exposures to tot_value. -/
theorem foldl_expStep_tot (exposures : Exposures) (hazard : Hazard)
    (imp_fun : ImpactFunc) (lst : List Nat) (st : CalcState) :
    (lst.foldl (expStep exposures hazard imp_fun) st).tot_value
      = st.tot_value + (lst.map (fun i => exposures.value.getD i 0)).sum := by
  induction lst generalizing st with
  | nil => simp
  | cons i is ih =>
    rw [List.foldl_cons, ih]
    show st.tot_value + exposures.value.getD i 0 + _ = _
    rw [List.map_cons, List.sum_cons]
    ring

/-- The outer loop adds, function by function, the values of the matched
exposures to tot_value. -/
theorem foldl_funStep_tot (exposures : Exposures) (hazard : Hazard)
    (exp_idx : List Nat) (fs : List ImpactFunc) (st : CalcState) :
    (fs.foldl (funStep exposures hazard exp_idx) st).tot_value
      = st.tot_value
        + (fs.map (fun f => ((matchedExposures exposures exp_idx f).map
            (fun i => exposures.value.getD i 0)).sum)).sum := by
  induction fs generalizing st with
  | nil => simp
  | cons f fs ih =>
    rw [List.foldl_cons, ih, List.map_cons, List.sum_cons]
    show ((matchedExposures exposures exp_idx f).foldl _ st).tot_value + _ = _
    rw [foldl_expStep_tot]
    ring

/-- Filtering by a disjunction of disjoint predicates splits the sum. -/
theorem sum_map_filter_or (l : List Nat) (p q : Nat → Bool) (v : Nat → ℚ)
    (hdisj : ∀ i ∈ l, ¬(p i = true ∧ q i = true)) :
    ((l.filter (fun i => p i || q i)).map v).sum
      = ((l.filter p).map v).sum + ((l.filter q).map v).sum := by
  induction l with
  | nil => simp
  | cons x xs ih =>
    have ihx := ih (fun i hi => hdisj i (List.mem_cons_of_mem _ hi))
    by_cases hp : p x = true
    · have hq : q x = false := by
        cases hqt : q x
        · rfl
        · exact absurd ⟨hp, hqt⟩ (hdisj x (List.mem_cons_self _ _))
      simp only [List.filter_cons, hp, hq, Bool.true_or, if_true,
        Bool.false_eq_true, if_false, List.map_cons, List.sum_cons, ihx]
      ring
    · have hp2 : p x = false := Bool.eq_false_iff.2 hp
      by_cases hq : q x = true
      · simp only [List.filter_cons, hp2, hq, Bool.false_or, if_true,
          Bool.false_eq_true, if_false, List.map_cons, List.sum_cons, ihx]
        ring
      · have hq2 : q x = false := Bool.eq_false_iff.2 hq
        simp only [List.filter_cons, hp2, hq2, Bool.or_self,
          Bool.false_eq_true, if_false, ihx]

/-- Summing matched values function by function equals summing over the
exposures matched by any function, when the function ids are distinct. -/
theorem tot_exchange (exposures : Exposures) (exp_idx : List Nat)
    (fs : List ImpactFunc) (hnodup : (fs.map ImpactFunc.id).Nodup) :
    (fs.map (fun f => ((matchedExposures exposures exp_idx f).map
        (fun i => exposures.value.getD i 0)).sum)).sum
      = ((exp_idx.filter (matchedBy exposures fs)).map
          (fun i => exposures.value.getD i 0)).sum := by
  induction fs with
  | nil =>
    have h : ∀ i ∈ exp_idx, matchedBy exposures [] i = (fun _ : Nat => false) i :=
      fun i _ => rfl
    rw [List.map_nil, List.sum_nil, List.filter_congr h, List.filter_false,
      List.map_nil, List.sum_nil]
  | cons f fs ih =>
    rw [List.map_cons] at hnodup
    have hhead := (List.nodup_cons.1 hnodup).1
    have htail := (List.nodup_cons.1 hnodup).2
    rw [List.map_cons, List.sum_cons, ih htail]
    have hped : ∀ i ∈ exp_idx, matchedBy exposures (f :: fs) i
        = ((exposures.impact_id.getD i 0 == f.id) || matchedBy exposures fs i) := by
      intro i _
      simp [matchedBy, List.any_cons]
    rw [List.filter_congr hped]
    rw [sum_map_filter_or exp_idx _ _ _ ?hdisj]
    case hdisj =>
      intro i _ hi
      rw [beq_iff_eq] at hi
      rcases hi with ⟨hif, hany⟩
      rcases List.any_eq_true.1 hany with ⟨g, hg, hgi⟩
      rw [beq_iff_eq] at hgi
      apply hhead
      rw [List.mem_map]
      exact ⟨g, hg, by rw [← hgi, ← hif]⟩
    rfl

/-- C10 (tot_value characterization): calc adds the full value of every
eligible exposure matched by some impact function of the hazard's type to
tot_value, independently of the hazard's intensities, provided the
registered function ids are distinct. -/
theorem C10_tot_value (exposures : Exposures) (impact_funcs : ImpactFuncSet)
    (hazard : Hazard)
    (hnodup : ((impact_funcs.get_func hazard.haz_type).map ImpactFunc.id).Nodup) :
    (Impact.«calc» exposures impact_funcs hazard).tot_value
      = (((selectExposures exposures).filter
          (matchedBy exposures (impact_funcs.get_func hazard.haz_type))).map
            (fun i => exposures.value.getD i 0)).sum := by
  unfold Impact.«calc»
  by_cases hemp : (selectExposures exposures).isEmpty = true
  · rw [if_pos hemp]
    rw [List.isEmpty_iff.1 hemp]
    simp
  · rw [if_neg hemp]
    dsimp only
    rw [foldl_funStep_tot,
      tot_exchange exposures (selectExposures exposures) _ hnodup]
    simp

/-- C10 witness: the characterization instantiated on the end-to-end
example, where the single eligible exposure is matched and tot_value is
its full value. -/
theorem C10_tot_value_witness :
    ((c2_funcs.get_func c2_hazard.haz_type).map ImpactFunc.id).Nodup ∧
    (Impact.«calc» c2_exposures c2_funcs c2_hazard).tot_value
      = (((selectExposures c2_exposures).filter
          (matchedBy c2_exposures (c2_funcs.get_func c2_hazard.haz_type))).map
            (fun i => c2_exposures.value.getD i 0)).sum :=
  ⟨by with_unfolding_all decide,
    C10_tot_value c2_exposures c2_funcs c2_hazard
      (by with_unfolding_all decide)⟩

end Climada

namespace Climada

/-- C7 (monotone frequency curve): for nonnegative event frequencies, the
curve's impacts are sorted non-increasing and form a permutation of
at_event, and the return periods are non-increasing with rank. -/
theorem C7_monotone_curve (imp : ImpactResult)
    (hfreq : ∀ q ∈ imp.frequency, 0 ≤ q) :
    List.Sorted (fun a b : ℚ => b ≤ a) (Impact.calc_freq_curve imp).impact ∧
    (Impact.calc_freq_curve imp).impact.Perm imp.at_event ∧
    List.Sorted (fun a b : WithTop ℚ => b ≤ a)
      (Impact.calc_freq_curve imp).return_per := by
  refine ⟨?_, ?_, ?_⟩
  · show List.Sorted _
      ((sortIdxs imp.at_event).map (fun i => imp.at_event.getD i 0))
    have hs : List.Pairwise (descRel imp.at_event) (sortIdxs imp.at_event) :=
      List.sorted_insertionSort (descRel imp.at_event)
        (List.range imp.at_event.length)
    exact List.Pairwise.map _ (fun a b hab => hab) hs
  · show ((sortIdxs imp.at_event).map
      (fun i => imp.at_event.getD i 0)).Perm imp.at_event
    have hperm : (sortIdxs imp.at_event).Perm
        (List.range imp.at_event.length) :=
      List.perm_insertionSort _ _
    have hmap := hperm.map (fun i => imp.at_event.getD i 0)
    rw [map_getD_range imp.at_event 0] at hmap
    exact hmap
  · show List.Sorted _ ((exceedFreq imp).map invFreq)
    have hent : ∀ r ∈ (sortIdxs imp.at_event).map
        (fun i => imp.frequency.getD i 0), 0 ≤ r := by
      intro r hr
      rcases List.mem_map.1 hr with ⟨i, _, rfl⟩
      exact getD_nonneg hfreq i
    apply sorted_map_invFreq
    · intro q hq
      unfold exceedFreq cumsum at hq
      exact cumsumFrom_nonneg _ _ le_rfl hent q hq
    · unfold exceedFreq cumsum
      exact cumsumFrom_sorted _ _ hent

/-- C7 witness: the curve of the two-event impact result c7_imp. -/
theorem C7_monotone_curve_witness :
    (∀ q ∈ c7_imp.frequency, 0 ≤ q) ∧
    (List.Sorted (fun a b : ℚ => b ≤ a) (Impact.calc_freq_curve c7_imp).impact ∧
      (Impact.calc_freq_curve c7_imp).impact.Perm c7_imp.at_event ∧
      List.Sorted (fun a b : WithTop ℚ => b ≤ a)
        (Impact.calc_freq_curve c7_imp).return_per) :=
  ⟨by with_unfolding_all decide,
    C7_monotone_curve c7_imp (by with_unfolding_all decide)⟩

/-- C3 counterexample: with value 100, deductible 0, cover 100 (= value,
so clipping is skipped), mdr reaching 2 (≥ 0 as the claim requires), paa
and fraction within [0, 1], the single event's impact is 200, exceeding
the cover of 100. -/
theorem C3_clipping_counterexample :
    0 ≤ c2_exposures.value.getD 0 0 ∧
    (∀ q ∈ c3_imp_fun.mdr, 0 ≤ q) ∧
    (∀ q ∈ c3_imp_fun.paa, 0 ≤ q ∧ q ≤ 1) ∧
    (∀ row ∈ c3_hazard.fraction, ∀ q ∈ row, 0 ≤ q ∧ q ≤ 1) ∧
    c2_exposures.cover.getD 0 0 = 100 ∧
    (Impact._one_exposure 0 c2_exposures c3_hazard c3_imp_fun).2 = [200] ∧
    ¬(∀ v ∈ (Impact._one_exposure 0 c2_exposures c3_hazard c3_imp_fun).2,
      v ≤ c2_exposures.cover.getD 0 0) := by
  with_unfolding_all decide

/-- C3 as amended: when additionally every mdr breakpoint value is at most
1 (so the interpolated mean damage ratio is a true ratio), no event's
impact returned by _one_exposure exceeds the exposure's cover. -/
theorem C3_clipping_law (iexp : Nat) (exposures : Exposures) (hazard : Hazard)
    (imp_fun : ImpactFunc)
    (hval : 0 ≤ exposures.value.getD iexp 0)
    (hcov : 0 ≤ exposures.cover.getD iexp 0)
    (hmdr : ∀ q ∈ imp_fun.mdr, 0 ≤ q ∧ q ≤ 1)
    (hpaa : ∀ q ∈ imp_fun.paa, 0 ≤ q ∧ q ≤ 1)
    (hfrac : ∀ row ∈ hazard.fraction, ∀ q ∈ row, 0 ≤ q ∧ q ≤ 1) :
    ∀ v ∈ (Impact._one_exposure iexp exposures hazard imp_fun).2,
      v ≤ exposures.cover.getD iexp 0 := by
  intro v hv
  unfold Impact._one_exposure at hv
  dsimp only at hv
  split at hv
  case isTrue hany =>
    split at hv
    case isTrue hcond =>
      rcases mem_zipWith hv with ⟨a, _, b, _, rfl⟩
      exact min_le_right _ _
    case isFalse hcond =>
      push_neg at hcond
      have hvc : exposures.value.getD iexp 0 ≤ exposures.cover.getD iexp 0 :=
        hcond.2
      rcases List.mem_map.1 hv with ⟨e, he, rfl⟩
      have hm : 0 ≤ imp_fun.calc_mdr
            (mat hazard.intensity e (assignedCentroid exposures iexp)) ∧
          imp_fun.calc_mdr
            (mat hazard.intensity e (assignedCentroid exposures iexp)) ≤ 1 :=
        interpSeg_bounds _ 0 1 le_rfl zero_le_one _
          (fun p hp => hmdr p.2 (List.of_mem_zip hp).2)
      have hf0 : 0 ≤ mat hazard.fraction e (assignedCentroid exposures iexp) :=
        mat_nonneg _ (fun row hr q hq => (hfrac row hr q hq).1) _ _
      have hf1 : mat hazard.fraction e (assignedCentroid exposures iexp) ≤ 1 :=
        mat_le _ 1 zero_le_one (fun row hr q hq => (hfrac row hr q hq).2) _ _
      have hvm : 0 ≤ exposures.value.getD iexp 0 * imp_fun.calc_mdr
          (mat hazard.intensity e (assignedCentroid exposures iexp)) :=
        mul_nonneg hval hm.1
      calc exposures.value.getD iexp 0 *
            imp_fun.calc_mdr
              (mat hazard.intensity e (assignedCentroid exposures iexp)) *
            mat hazard.fraction e (assignedCentroid exposures iexp)
          ≤ exposures.value.getD iexp 0 *
            imp_fun.calc_mdr
              (mat hazard.intensity e (assignedCentroid exposures iexp)) * 1 :=
            mul_le_mul_of_nonneg_left hf1 hvm
        _ = exposures.value.getD iexp 0 *
            imp_fun.calc_mdr
              (mat hazard.intensity e (assignedCentroid exposures iexp)) :=
            mul_one _
        _ ≤ exposures.value.getD iexp 0 * 1 :=
            mul_le_mul_of_nonneg_left hm.2 hval
        _ = exposures.value.getD iexp 0 := mul_one _
        _ ≤ exposures.cover.getD iexp 0 := hvc
  case isFalse hany =>
    have hfl : (rawImpact iexp exposures hazard imp_fun).any
        (fun w => w != 0) = false := Bool.eq_false_iff.2 hany
    have hzero := List.any_eq_false.1 hfl v hv
    have : v = 0 := by simpa using hzero
    rw [this]
    exact hcov

/-- C3 witness: the amended clipping law instantiated on the end-to-end
example, whose impacts 50 and 100 stay below the cover 100. -/
theorem C3_clipping_law_witness :
    0 ≤ c2_exposures.value.getD 0 0 ∧
    0 ≤ c2_exposures.cover.getD 0 0 ∧
    (∀ q ∈ c2_imp_fun.mdr, 0 ≤ q ∧ q ≤ 1) ∧
    (∀ q ∈ c2_imp_fun.paa, 0 ≤ q ∧ q ≤ 1) ∧
    (∀ row ∈ c2_hazard.fraction, ∀ q ∈ row, 0 ≤ q ∧ q ≤ 1) ∧
    (∀ v ∈ (Impact._one_exposure 0 c2_exposures c2_hazard c2_imp_fun).2,
      v ≤ c2_exposures.cover.getD 0 0) :=
  ⟨by with_unfolding_all decide, by with_unfolding_all decide,
    by with_unfolding_all decide, by with_unfolding_all decide,
    by with_unfolding_all decide,
    C3_clipping_law 0 c2_exposures c2_hazard c2_imp_fun
      (by with_unfolding_all decide) (by with_unfolding_all decide)
      (by with_unfolding_all decide) (by with_unfolding_all decide)
      (by with_unfolding_all decide)⟩

end Climada

namespace Climada

/-- getD at an in-range index is the indexed element. -/
theorem getD_eq_getElem_of_lt {α : Type} (l : List α) (d : α) (n : Nat)
    (h : n < l.length) : l.getD n d = l[n] := by
  rw [List.getD_eq_getElem?_getD, List.getElem?_eq_getElem h]
  rfl

/-- C6 (relevant events and raw-impact formula): _one_exposure returns
exactly the events with nonzero intensity at the assigned centroid; the
pre-clipping impact at rank j is value times interpolated mean damage
ratio times the fraction at the same cell; and fraction values at
zero-intensity cells never influence the result. -/
theorem C6_relevant_events (iexp : Nat) (exposures : Exposures)
    (h1 h2 : Hazard) (imp_fun : ImpactFunc)
    (hint : h1.intensity = h2.intensity)
    (hfr : ∀ e < h1.intensity.length, ∀ c < (h1.intensity.getD e []).length,
      mat h1.intensity e c ≠ 0 → mat h1.fraction e c = mat h2.fraction e c) :
    (∀ e, e ∈ (Impact._one_exposure iexp exposures h1 imp_fun).1 ↔
      e < h1.intensity.length ∧
        mat h1.intensity e (assignedCentroid exposures iexp) ≠ 0) ∧
    (∀ j, j < (eventRow h1 (assignedCentroid exposures iexp)).length →
      (rawImpact iexp exposures h1 imp_fun).getD j 0 =
        exposures.value.getD iexp 0 *
          imp_fun.calc_mdr (mat h1.intensity
            ((eventRow h1 (assignedCentroid exposures iexp)).getD j 0)
            (assignedCentroid exposures iexp)) *
          mat h1.fraction
            ((eventRow h1 (assignedCentroid exposures iexp)).getD j 0)
            (assignedCentroid exposures iexp)) ∧
    Impact._one_exposure iexp exposures h1 imp_fun
      = Impact._one_exposure iexp exposures h2 imp_fun := by
  have hER : eventRow h1 (assignedCentroid exposures iexp)
      = eventRow h2 (assignedCentroid exposures iexp) := by
    unfold eventRow
    rw [hint]
  have hRI : rawImpact iexp exposures h1 imp_fun
      = rawImpact iexp exposures h2 imp_fun := by
    unfold rawImpact
    rw [← hER]
    apply List.map_congr_left
    intro e he
    rw [mem_eventRow] at he
    have hb := mat_ne_zero_bounds h1.intensity e
      (assignedCentroid exposures iexp) he.2
    rw [hint, hfr e he.1 _ hb.2 he.2]
  refine ⟨?_, ?_, ?_⟩
  · intro e
    rw [_one_exposure_fst]
    exact mem_eventRow h1 _ e
  · intro j hj
    unfold rawImpact
    rw [getD_eq_getElem_of_lt _ 0 j (by simpa using hj), List.getElem_map,
      getD_eq_getElem_of_lt _ 0 j hj]
  · unfold Impact._one_exposure
    dsimp only
    rw [← hER, ← hRI, ← hint]

/-- C6 witness: two hazards agreeing on intensity and on the fraction at
the single nonzero-intensity cell, differing in the fraction at the
zero-intensity cell, give identical _one_exposure results. -/
theorem C6_relevant_events_witness :
    c6_hazard_a.intensity = c6_hazard_b.intensity ∧
    (∀ e < c6_hazard_a.intensity.length,
      ∀ c < (c6_hazard_a.intensity.getD e []).length,
      mat c6_hazard_a.intensity e c ≠ 0 →
        mat c6_hazard_a.fraction e c = mat c6_hazard_b.fraction e c) ∧
    Impact._one_exposure 0 c2_exposures c6_hazard_a c2_imp_fun
      = Impact._one_exposure 0 c2_exposures c6_hazard_b c2_imp_fun :=
  ⟨rfl, by with_unfolding_all decide,
    (C6_relevant_events 0 c2_exposures c6_hazard_a c6_hazard_b c2_imp_fun rfl
      (by with_unfolding_all decide)).2.2⟩

/-- Linear interpolation of nonnegative values is nonnegative. -/
theorem interpSeg_nonneg (x : ℚ) :
    ∀ ps : List (ℚ × ℚ), (∀ p ∈ ps, 0 ≤ p.2) → 0 ≤ interpSeg x ps
  | [] => fun _ => le_rfl
  | [(x0, f0)] => fun h => by
    simpa [interpSeg] using h (x0, f0) (List.mem_cons_self _ _)
  | (x0, f0) :: (x1, f1) :: ps => fun h => by
    have h0 := h (x0, f0) (List.mem_cons_self _ _)
    have h1 := h (x1, f1) (List.mem_cons_of_mem _ (List.mem_cons_self _ _))
    simp only [interpSeg]
    by_cases hx0 : x ≤ x0
    · simpa [hx0] using h0
    · by_cases hx1 : x ≤ x1
      · have hlt0 : x0 < x := lt_of_not_le hx0
        have hd : 0 < x1 - x0 := by linarith
        have ht0 : 0 ≤ (x - x0) / (x1 - x0) := le_of_lt (div_pos (by linarith) hd)
        have ht1 : (x - x0) / (x1 - x0) ≤ 1 := by
          rw [div_le_one hd]
          linarith
        have heq : f0 + (f1 - f0) * (x - x0) / (x1 - x0)
            = (1 - (x - x0) / (x1 - x0)) * f0
              + ((x - x0) / (x1 - x0)) * f1 := by
          field_simp
          ring
        rw [if_neg hx0, if_pos hx1, heq]
        nlinarith
      · rw [if_neg hx0, if_neg hx1]
        exact interpSeg_nonneg x ((x1, f1) :: ps)
          (fun p hp => h p (List.mem_cons_of_mem _ hp))

/-- The impact vector returned by _one_exposure is entrywise nonnegative
when value, mdr, fraction and cover are nonnegative. -/
theorem _one_exposure_nonneg (iexp : Nat) (exposures : Exposures)
    (hazard : Hazard) (imp_fun : ImpactFunc)
    (hval : 0 ≤ exposures.value.getD iexp 0)
    (hmdr : ∀ q ∈ imp_fun.mdr, 0 ≤ q)
    (hfrac : ∀ row ∈ hazard.fraction, ∀ q ∈ row, 0 ≤ q)
    (hcov : 0 ≤ exposures.cover.getD iexp 0) :
    ∀ v ∈ (Impact._one_exposure iexp exposures hazard imp_fun).2, 0 ≤ v := by
  have hraw : ∀ w ∈ rawImpact iexp exposures hazard imp_fun, 0 ≤ w := by
    intro w hw
    rcases List.mem_map.1 hw with ⟨e, _, rfl⟩
    have hm : 0 ≤ imp_fun.calc_mdr
        (mat hazard.intensity e (assignedCentroid exposures iexp)) :=
      interpSeg_nonneg _ _ (fun p hp => hmdr p.2 (List.of_mem_zip hp).2)
    exact mul_nonneg (mul_nonneg hval hm) (mat_nonneg _ hfrac _ _)
  intro v hv
  unfold Impact._one_exposure at hv
  dsimp only at hv
  split at hv
  case isTrue hany =>
    split at hv
    case isTrue hcond =>
      rcases mem_zipWith hv with ⟨a, _, b, _, rfl⟩
      exact le_min (le_max_right _ _) hcov
    case isFalse hcond => exact hraw v hv
  case isFalse hany => exact hraw v hv

/-- A dot product of entrywise nonnegative lists has nonnegative sum. -/
theorem zipWith_mul_nonneg_sum (l1 l2 : List ℚ) (h1 : ∀ q ∈ l1, 0 ≤ q)
    (h2 : ∀ q ∈ l2, 0 ≤ q) :
    0 ≤ (List.zipWith (fun a b => a * b) l1 l2).sum := by
  apply List.sum_nonneg
  intro x hx
  rcases mem_zipWith hx with ⟨a, ha, b, hb, rfl⟩
  exact mul_nonneg (h1 a ha) (h2 b hb)

/-- One inner-loop step preserves entrywise nonnegativity of the state. -/
theorem expStep_nonneg (exposures : Exposures) (hazard : Hazard)
    (imp_fun : ImpactFunc) (st : CalcState) (iexp : Nat)
    (hval : ∀ q ∈ exposures.value, 0 ≤ q)
    (hmdr : ∀ q ∈ imp_fun.mdr, 0 ≤ q)
    (hfrac : ∀ row ∈ hazard.fraction, ∀ q ∈ row, 0 ≤ q)
    (hcov : ∀ q ∈ exposures.cover, 0 ≤ q)
    (hfreq : ∀ q ∈ hazard.frequency, 0 ≤ q)
    (ha : ∀ q ∈ st.at_event, 0 ≤ q) (he : ∀ q ∈ st.eai_exp, 0 ≤ q)
    (ht : 0 ≤ st.tot_value) :
    (∀ q ∈ (expStep exposures hazard imp_fun st iexp).at_event, 0 ≤ q) ∧
    (∀ q ∈ (expStep exposures hazard imp_fun st iexp).eai_exp, 0 ≤ q) ∧
    0 ≤ (expStep exposures hazard imp_fun st iexp).tot_value := by
  have hone := _one_exposure_nonneg iexp exposures hazard imp_fun
    (getD_nonneg hval iexp) hmdr hfrac (getD_nonneg hcov iexp)
  refine ⟨?_, ?_, ?_⟩
  · show ∀ q ∈ addAt st.at_event _ _, 0 ≤ q
    exact addAt_nonneg _ _ _ ha hone
  · show ∀ q ∈ updAdd st.eai_exp iexp _, 0 ≤ q
    apply updAdd_nonneg _ _ _ he
    apply zipWith_mul_nonneg_sum _ _ hone
    intro q hq
    rcases List.mem_map.1 hq with ⟨e, _, rfl⟩
    exact getD_nonneg hfreq e
  · show 0 ≤ st.tot_value + exposures.value.getD iexp 0
    exact add_nonneg ht (getD_nonneg hval iexp)

/-- The inner loop preserves entrywise nonnegativity of the state. -/
theorem foldl_expStep_nonneg (exposures : Exposures) (hazard : Hazard)
    (imp_fun : ImpactFunc) (lst : List Nat) (st : CalcState)
    (hval : ∀ q ∈ exposures.value, 0 ≤ q)
    (hmdr : ∀ q ∈ imp_fun.mdr, 0 ≤ q)
    (hfrac : ∀ row ∈ hazard.fraction, ∀ q ∈ row, 0 ≤ q)
    (hcov : ∀ q ∈ exposures.cover, 0 ≤ q)
    (hfreq : ∀ q ∈ hazard.frequency, 0 ≤ q)
    (ha : ∀ q ∈ st.at_event, 0 ≤ q) (he : ∀ q ∈ st.eai_exp, 0 ≤ q)
    (ht : 0 ≤ st.tot_value) :
    (∀ q ∈ (lst.foldl (expStep exposures hazard imp_fun) st).at_event, 0 ≤ q) ∧
    (∀ q ∈ (lst.foldl (expStep exposures hazard imp_fun) st).eai_exp, 0 ≤ q) ∧
    0 ≤ (lst.foldl (expStep exposures hazard imp_fun) st).tot_value := by
  induction lst generalizing st with
  | nil => exact ⟨ha, he, ht⟩
  | cons i is ih =>
    have hstep := expStep_nonneg exposures hazard imp_fun st i
      hval hmdr hfrac hcov hfreq ha he ht
    rw [List.foldl_cons]
    exact ih _ hstep.1 hstep.2.1 hstep.2.2

/-- The outer loop preserves entrywise nonnegativity of the state. -/
theorem foldl_funStep_nonneg (exposures : Exposures) (hazard : Hazard)
    (exp_idx : List Nat) (fs : List ImpactFunc) (st : CalcState)
    (hval : ∀ q ∈ exposures.value, 0 ≤ q)
    (hmdr : ∀ f ∈ fs, ∀ q ∈ f.mdr, 0 ≤ q)
    (hfrac : ∀ row ∈ hazard.fraction, ∀ q ∈ row, 0 ≤ q)
    (hcov : ∀ q ∈ exposures.cover, 0 ≤ q)
    (hfreq : ∀ q ∈ hazard.frequency, 0 ≤ q)
    (ha : ∀ q ∈ st.at_event, 0 ≤ q) (he : ∀ q ∈ st.eai_exp, 0 ≤ q)
    (ht : 0 ≤ st.tot_value) :
    (∀ q ∈ (fs.foldl (funStep exposures hazard exp_idx) st).at_event, 0 ≤ q) ∧
    (∀ q ∈ (fs.foldl (funStep exposures hazard exp_idx) st).eai_exp, 0 ≤ q) ∧
    0 ≤ (fs.foldl (funStep exposures hazard exp_idx) st).tot_value := by
  induction fs generalizing st with
  | nil => exact ⟨ha, he, ht⟩
  | cons f fs ih =>
    have hstep := foldl_expStep_nonneg exposures hazard f
      (matchedExposures exposures exp_idx f) st hval
      (hmdr f (List.mem_cons_self _ _)) hfrac hcov hfreq ha he ht
    rw [List.foldl_cons]
    apply ih
    · exact fun g hg => hmdr g (List.mem_cons_of_mem _ hg)
    · exact hstep.1
    · exact hstep.2.1
    · exact hstep.2.2

/-- Every function returned by get_func is the second component of a
registered pair. -/
theorem get_func_mem (s : ImpactFuncSet) (ht : String) (f : ImpactFunc)
    (h : f ∈ s.get_func ht) : ∃ p ∈ s.funcs, p.2 = f := by
  unfold ImpactFuncSet.get_func at h
  rcases List.mem_map.1 h with ⟨p, hp, rfl⟩
  exact ⟨p, (List.mem_filter.1 hp).1, rfl⟩

/-- C8 counterexample: all mdr, paa, value and frequency inputs are
nonnegative, yet a fraction of -1 (not constrained by the claim) drives
aai_agg, the at_event entry and the eai_exp entry below zero. -/
theorem C8_nonneg_counterexample :
    (∀ q ∈ c8_exposures.value, 0 ≤ q) ∧
    (∀ p ∈ c2_funcs.funcs, ∀ q ∈ p.2.mdr, 0 ≤ q) ∧
    (∀ p ∈ c2_funcs.funcs, ∀ q ∈ p.2.paa, 0 ≤ q) ∧
    (∀ q ∈ c8_hazard.frequency, 0 ≤ q) ∧
    (Impact.«calc» c8_exposures c2_funcs c8_hazard).at_event = [-100] ∧
    (Impact.«calc» c8_exposures c2_funcs c8_hazard).aai_agg < 0 := by
  with_unfolding_all decide

/-- C8 as amended: when additionally the fraction matrix and the cover
values are nonnegative (data-model preconditions the claim leaves
implicit), all entries of at_event and eai_exp and the scalars tot_value
and aai_agg produced by calc are nonnegative. -/
theorem C8_nonneg (exposures : Exposures) (impact_funcs : ImpactFuncSet)
    (hazard : Hazard)
    (hval : ∀ q ∈ exposures.value, 0 ≤ q)
    (hmdr : ∀ p ∈ impact_funcs.funcs, ∀ q ∈ p.2.mdr, 0 ≤ q)
    (hpaa : ∀ p ∈ impact_funcs.funcs, ∀ q ∈ p.2.paa, 0 ≤ q)
    (hfreq : ∀ q ∈ hazard.frequency, 0 ≤ q)
    (hfrac : ∀ row ∈ hazard.fraction, ∀ q ∈ row, 0 ≤ q)
    (hcov : ∀ q ∈ exposures.cover, 0 ≤ q) :
    (∀ v ∈ (Impact.«calc» exposures impact_funcs hazard).at_event, 0 ≤ v) ∧
    (∀ v ∈ (Impact.«calc» exposures impact_funcs hazard).eai_exp, 0 ≤ v) ∧
    0 ≤ (Impact.«calc» exposures impact_funcs hazard).tot_value ∧
    0 ≤ (Impact.«calc» exposures impact_funcs hazard).aai_agg := by
  unfold Impact.«calc»
  by_cases hemp : (selectExposures exposures).isEmpty = true
  · rw [if_pos hemp]
    refine ⟨?_, ?_, le_rfl, le_rfl⟩
    · intro v hv
      rw [List.eq_of_mem_replicate hv]
    · intro v hv
      rw [List.eq_of_mem_replicate hv]
  · rw [if_neg hemp]
    dsimp only
    have hz : ∀ q ∈ List.replicate hazard.intensity.length (0 : ℚ), 0 ≤ q :=
      fun q hq => le_of_eq (List.eq_of_mem_replicate hq).symm
    have hz2 : ∀ q ∈ List.replicate exposures.value.length (0 : ℚ), 0 ≤ q :=
      fun q hq => le_of_eq (List.eq_of_mem_replicate hq).symm
    have hfold := foldl_funStep_nonneg exposures hazard
      (selectExposures exposures) (impact_funcs.get_func hazard.haz_type)
      ⟨List.replicate hazard.intensity.length 0,
        List.replicate exposures.value.length 0, 0⟩
      hval
      (fun f hf => by
        rcases get_func_mem impact_funcs hazard.haz_type f hf with ⟨p, hp, rfl⟩
        exact hmdr p hp)
      hfrac hcov hfreq hz hz2 le_rfl
    exact ⟨hfold.1, hfold.2.1, hfold.2.2,
      zipWith_mul_nonneg_sum _ _ hfold.1 hfreq⟩

/-- C8 witness: the amended nonnegativity statement instantiated on the
end-to-end example. -/
theorem C8_nonneg_witness :
    (∀ q ∈ c2_exposures.value, 0 ≤ q) ∧
    (∀ p ∈ c2_funcs.funcs, ∀ q ∈ p.2.mdr, 0 ≤ q) ∧
    (∀ p ∈ c2_funcs.funcs, ∀ q ∈ p.2.paa, 0 ≤ q) ∧
    (∀ q ∈ c2_hazard.frequency, 0 ≤ q) ∧
    (∀ row ∈ c2_hazard.fraction, ∀ q ∈ row, 0 ≤ q) ∧
    (∀ q ∈ c2_exposures.cover, 0 ≤ q) ∧
    ((∀ v ∈ (Impact.«calc» c2_exposures c2_funcs c2_hazard).at_event, 0 ≤ v) ∧
      (∀ v ∈ (Impact.«calc» c2_exposures c2_funcs c2_hazard).eai_exp, 0 ≤ v) ∧
      0 ≤ (Impact.«calc» c2_exposures c2_funcs c2_hazard).tot_value ∧
      0 ≤ (Impact.«calc» c2_exposures c2_funcs c2_hazard).aai_agg) :=
  ⟨by with_unfolding_all decide, by with_unfolding_all decide,
    by with_unfolding_all decide, by with_unfolding_all decide,
    by with_unfolding_all decide, by with_unfolding_all decide,
    C8_nonneg c2_exposures c2_funcs c2_hazard
      (by with_unfolding_all decide) (by with_unfolding_all decide)
      (by with_unfolding_all decide) (by with_unfolding_all decide)
      (by with_unfolding_all decide) (by with_unfolding_all decide)⟩

end Climada
